import Mathlib

set_option maxRecDepth 16384

/-!
Shallow embedding of the minicoin node (wallet.js, work.js, txs.js, blocks.js,
pool.js) and proofs about the frozen claims.

Modelling conventions, used throughout:

* JS numbers that the source only ever uses as integers (times, nonces, amounts,
  indices) are modelled as Int; the source rejects non-integers through
  Number.isSafeInteger checks, which the typed embedding keeps as the range part
  of isSafeInt.
* JS objects whose key sets the source pins down with Object.keys checks are
  modelled as structures; a value of the structure type satisfies the key check
  by construction.  Blocks mix two transaction shapes, so a block transaction is
  the sum type BTx; feeding the wrong shape to a validator reproduces the JS
  key-check failure.
* SHA-256, secp256k1 point validation and signature verification are black-box
  collaborators; they enter as the fields of a Crypto value.  ECDSA signing by
  the wallet key is a function String -> String of the Wallet value.
* Functions that mutate shared state in JS return the final value of that state
  explicitly; a throw at source line L is an Except.error produced before any
  state change the source performs after line L, so the returned state at each
  error exit is exactly the state the JS caller observes after the exception.
* chainDifficulty accumulates IEEE-754 binary64 values.  Every summand is
  2 ^ blockDifficulty with blockDifficulty >= -1, so all exact values are
  integer multiples of 1/2.  The embedding stores them doubled, as Nat, and
  rounds with rne, round-to-nearest-ties-to-even at 53 significant bits, which
  is exactly binary64 addition on this range (scaling by 2 commutes with the
  rounding).  The fuel bound 1400 in nlog2 covers every value below 2 ^ 1400;
  a JS array of at most 2^32 - 1 blocks keeps the sum below 2 ^ 290, far under
  the bound (and binary64 itself overflows at 2 ^ 1024).
-/

namespace Minicoin

/-! ## Data model -/

structure UTXO where
  hash : String
  index : Int
  publicKey : String
  amount : Int
deriving DecidableEq

structure TxInput where
  hash : String
  index : Int
  signature : String
deriving DecidableEq

structure Output where
  publicKey : String
  amount : Int
deriving DecidableEq

structure Tx where
  inputs : List TxInput
  outputs : List Output
  hash : String
deriving DecidableEq

structure Coinbase where
  outputs : List Output
  hash : String
deriving DecidableEq

inductive BTx where
  | user (t : Tx)
  | coinbase (c : Coinbase)
deriving DecidableEq

structure Block where
  time : Int
  txs : List BTx
  nonce : Int
  hash : String
deriving DecidableEq

/-- Abstract cryptographic collaborators (hash.js SHA-256 and elliptic
secp256k1).  validPoint p models that keyFromPublic(p).getPublic(true) returns
p itself; verify pk msg sig models signature verification against a public key;
genesisPublicKey is the compressed public key derived from the fixed genesis
private key. -/
structure Crypto where
  sha256 : String → String
  validPoint : String → Bool
  verify : String → String → String → Bool
  genesisPublicKey : String

/-- The wallet keypair: its compressed public key and ECDSA signing of a
message (the DER hex of keyPair.sign). -/
structure Wallet where
  publicKey : String
  sign : String → String

structure PoolState where
  txs : List Tx
  usedUTXOs : List UTXO
deriving DecidableEq

structure NodeState where
  chain : List Block
  utxos : List UTXO
deriving DecidableEq

def dfltUTXO : UTXO := ⟨"", 0, "", 0⟩

def dfltTx : Tx := ⟨[], [], ""⟩

/-! ## Generic helpers mirroring JS array semantics -/

/-- Array.prototype.findIndex, as an Option instead of -1. -/
def findIdxFrom (p : α → Bool) : List α → Option Nat
  | [] => none
  | a :: l => if p a then some 0 else (findIdxFrom p l).map (· + 1)

/-- Array.prototype.find. -/
def findFrom (p : α → Bool) : List α → Option α
  | [] => none
  | a :: l => if p a then some a else findFrom p l

/-- The predicate used all over the source to locate a UTXO by its
(hash, index) key. -/
def matchUTXO (h : String) (idx : Int) : UTXO → Bool :=
  fun x => decide (x.hash = h ∧ x.index = idx)

/-! ## Validation predicates for the regex and integer checks -/

def isHexChar (c : Char) : Bool :=
  decide (('0' ≤ c ∧ c ≤ '9') ∨ ('a' ≤ c ∧ c ≤ 'f'))

/-- The check /^[0-9a-f]{n}$/.test s. -/
def isHexStr (n : Nat) (s : String) : Bool :=
  s.data.length == n && s.data.all isHexChar

/-- The check /^[0-9a-f]{20,144}$/.test s on signatures. -/
def isSigStr (s : String) : Bool :=
  decide (20 ≤ s.data.length ∧ s.data.length ≤ 144) && s.data.all isHexChar

/-- Number.isSafeInteger on an integer value: magnitude at most 2^53 - 1. -/
def isSafeInt (n : Int) : Bool :=
  decide (n.natAbs ≤ 2 ^ 53 - 1)

/-! ## Canonical serialization

JSON.stringify of exactly the object shapes the source hashes, with keys in
insertion order.  The hashed payloads only contain hex strings, so no JSON
string escaping arises. -/

def serUnsignedInput (h : String) (idx : Int) : String :=
  "\x7b\"hash\":\"" ++ h ++ "\",\"index\":" ++ toString idx ++ "\x7d"

def serSignedInput (i : TxInput) : String :=
  "\x7b\"hash\":\"" ++ i.hash ++ "\",\"index\":" ++ toString i.index ++
    ",\"signature\":\"" ++ i.signature ++ "\"\x7d"

def serOutput (o : Output) : String :=
  "\x7b\"publicKey\":\"" ++ o.publicKey ++ "\",\"amount\":" ++ toString o.amount ++ "\x7d"

def serArr (l : List String) : String :=
  "[" ++ String.intercalate "," l ++ "]"

/-- JSON.stringify of a transaction before its hash and signatures exist:
the payload of the transaction hash (wallet.js line 45, txs.js line 220). -/
def serTxNoHashNoSigs (ins : List (String × Int)) (outs : List Output) : String :=
  "\x7b\"inputs\":" ++ serArr (ins.map (fun p => serUnsignedInput p.1 p.2)) ++
    ",\"outputs\":" ++ serArr (outs.map serOutput) ++ "\x7d"

/-- JSON.stringify of a fully validated transaction, as it appears inside a
block when the block is hashed. -/
def serTxFull (t : Tx) : String :=
  "\x7b\"inputs\":" ++ serArr (t.inputs.map serSignedInput) ++
    ",\"outputs\":" ++ serArr (t.outputs.map serOutput) ++
    ",\"hash\":\"" ++ t.hash ++ "\"\x7d"

/-- JSON.stringify of a coinbase before its hash exists: the payload of the
coinbase hash (after the block time prefix). -/
def serCoinbaseNoHash (outs : List Output) : String :=
  "\x7b\"outputs\":" ++ serArr (outs.map serOutput) ++ "\x7d"

def serCoinbaseFull (c : Coinbase) : String :=
  "\x7b\"outputs\":" ++ serArr (c.outputs.map serOutput) ++
    ",\"hash\":\"" ++ c.hash ++ "\"\x7d"

def serBTx : BTx → String
  | .user t => serTxFull t
  | .coinbase c => serCoinbaseFull c

/-- JSON.stringify of a block before its hash exists: the payload of the block
hash (after the previous hash prefix). -/
def serBlockNoHash (time : Int) (txs : List BTx) (nonce : Int) : String :=
  "\x7b\"time\":" ++ toString time ++ ",\"txs\":" ++ serArr (txs.map serBTx) ++
    ",\"nonce\":" ++ toString nonce ++ "\x7d"

/-! ## work.js -/

/-- One iteration of the nextDifficulty loop: adjust by the interval, then
clamp to [0, 256]. -/
def clampStep (d : Int) (interval : Int) : Int :=
  let d1 := if interval < 5 then d + 1 else if 20 < interval then d - 1 else d
  if d1 < 0 then 0 else if 256 < d1 then 256 else d1

/-- work.js nextDifficulty: fold the clamped adjustment over consecutive block
intervals, starting from 0. -/
def nextDifficulty (chain : List Block) : Int :=
  (chain.zip chain.tail).foldl (fun d p => clampStep d (p.2.time - p.1.time)) 0

/-- Number.parseInt(ch, 16) on a single character (the source feeds it single
characters of the hash; parse failure is NaN). -/
def hexVal : Char → Option Nat := fun c =>
  if '0' ≤ c ∧ c ≤ '9' then some (c.toNat - 48)
  else if 'a' ≤ c ∧ c ≤ 'f' then some (c.toNat - 87)
  else if 'A' ≤ c ∧ c ≤ 'F' then some (c.toNat - 55)
  else none

def bitChar (b : Bool) : Char := if b then '1' else '0'

/-- ("0000" + v.toString(2)).substr(-4) for v < 16: the four binary digits of
the nibble, most significant first. -/
def nibbleBinChars (v : Nat) : List Char :=
  [bitChar (v.testBit 3), bitChar (v.testBit 2), bitChar (v.testBit 1), bitChar (v.testBit 0)]

/-- work.js blockDifficulty: build the 256-character binary string from the 64
hash characters and return indexOf of the first one bit (-1 when there is
none).  charAt past the end or a non-hex character goes through the JS NaN
path, producing the characters of "0NaN". -/
def blockDifficulty (b : Block) : Int :=
  let binary : List Char := (List.range 64).flatMap (fun i =>
    match b.hash.data[i]? with
    | some ch =>
      match hexVal ch with
      | some v => nibbleBinChars v
      | none => ['0', 'N', 'a', 'N']
    | none => ['0', 'N', 'a', 'N'])
  match findIdxFrom (fun ch => ch == '1') binary with
  | some k => (k : Int)
  | none => -1

/-- Floor of log2 with explicit fuel; structural recursion keeps it kernel
reducible on literals. -/
def rlog2 : Nat → Nat → Nat
  | 0, _ => 0
  | fuel + 1, n => if n < 2 then 0 else rlog2 fuel (n / 2) + 1

/-- Floor of log2, exact for every n < 2 ^ 1400 (far beyond any value a JS
array of blocks can produce, see the header note). -/
def nlog2 (n : Nat) : Nat := rlog2 1400 n

/-- Round to nearest, ties to even, at 53 significant bits: binary64 addition
of representable nonnegative values is rne of their exact sum.  With
p := 2 ^ (nlog2 n - 52) the significand is n / p and the discarded remainder
n % p; round up when the remainder exceeds p / 2, or equals it with an odd
significand. -/
def rne (n : Nat) : Nat :=
  if n < 2 ^ 53 then n
  else if 2 ^ (nlog2 n - 52) / 2 < n % 2 ^ (nlog2 n - 52)
      ∨ (n % 2 ^ (nlog2 n - 52) = 2 ^ (nlog2 n - 52) / 2 ∧ n / 2 ^ (nlog2 n - 52) % 2 = 1) then
    (n / 2 ^ (nlog2 n - 52) + 1) * 2 ^ (nlog2 n - 52)
  else n / 2 ^ (nlog2 n - 52) * 2 ^ (nlog2 n - 52)

/-- Math.pow(2, blockDifficulty b), stored doubled so that the value is a Nat
even when blockDifficulty is -1 (the all-zero-hash case, where JS adds 0.5). -/
def dblTerm (b : Block) : Nat :=
  2 ^ (blockDifficulty b + 1).toNat

/-- work.js chainDifficulty: float accumulation of Math.pow(2, blockDifficulty)
over the chain, modelled doubled (see header note). -/
def chainDifficulty (chain : List Block) : Nat :=
  chain.foldl (fun acc b => rne (acc + dblTerm b)) 0

/-- binary64 subtraction of two representable values of either sign: rne of
the exact difference, preserving sign. -/
def rneInt (x : Int) : Int :=
  if 0 ≤ x then (rne x.toNat : Int) else -(rne (-x).toNat : Int)

/-! ## txs.js: the transaction validator

addTx is split into the pure validation phase (everything up to the last throw,
txs.js lines 174-232, which mutates no shared state) and the commit (lines
234-247).  The outer function returns the final values of the block and UTXO
array the JS mutates in place. -/

/-- The per-input validation loop (txs.js lines 184-200): structural checks,
locate the UTXO by findIndex, reject a repeated index, accumulate net and the
index list. -/
def valInputs (utxos : List UTXO) : List TxInput → List Nat → Int → Except String (List Nat × Int)
  | [], idxs, net => .ok (idxs, net)
  | input :: rest, idxs, net =>
    if !(isHexStr 64 input.hash) then .error "Bad input UTXO hash string"
    else if !(isSafeInt input.index && decide (0 ≤ input.index ∧ input.index ≤ 1)) then
      .error "Bad input UTXO index"
    else
      match findIdxFrom (matchUTXO input.hash input.index) utxos with
      | none => .error "UTXO not found"
      | some k =>
        if idxs.contains k then .error "UTXO already used in this transaction"
        else valInputs utxos rest (idxs ++ [k]) (net + (utxos.getD k dfltUTXO).amount)

/-- The per-output validation loop (txs.js lines 203-214): structural checks,
public key canonicity, anti-dust amount bound, net accumulation, and the
rebuilt output list. -/
def valOutputs (c : Crypto) : List Output → Int → Except String (List Output × Int)
  | [], net => .ok ([], net)
  | o :: rest, net =>
    if !(isHexStr 66 o.publicKey) then .error "Bad public key string"
    else if !(c.validPoint o.publicKey) then .error "Bad public key"
    else if !(isSafeInt o.amount && decide (2 ≤ o.amount)) then
      .error ("Bad amount: " ++ toString o.amount)
    else
      match valOutputs c rest (net - o.amount) with
      | .error e => .error e
      | .ok (l, n) => .ok (⟨o.publicKey, o.amount⟩ :: l, n)

/-- The signature loop (txs.js lines 224-232): regex check, then verification
against the public key of the input UTXO located earlier.  The index list
always has the length of the input list here. -/
def valSigs (c : Crypto) (txHash : String) (utxos : List UTXO) :
    List TxInput → List Nat → Except String Unit
  | [], _ => .ok ()
  | input :: rest, idxs =>
    if !(isSigStr input.signature) then .error "Bad signature string"
    else
      match idxs with
      | [] => .error "Bad signature"
      | k :: ks =>
        if !(c.verify (utxos.getD k dfltUTXO).publicKey txHash input.signature) then
          .error "Bad signature"
        else valSigs c txHash utxos rest ks

/-- The validation phase of txs.js addTx on a user-shaped transaction: returns
the rebuilt validated transaction (equal field-for-field to the input) and the
located input UTXO indexes. -/
def validateTxUser (c : Crypto) (tx : Tx) (utxos : List UTXO) : Except String (Tx × List Nat) :=
  if tx.inputs.length < 1 then .error "Bad inputs array"
  else if tx.outputs.length < 1 || 2 < tx.outputs.length then .error "Bad outputs array"
  else
    match valInputs utxos tx.inputs [] 0 with
    | .error e => .error e
    | .ok (idxs, net1) =>
      match valOutputs c tx.outputs net1 with
      | .error e => .error e
      | .ok (vouts, net) =>
        if net ≠ 1 + (tx.inputs.length : Int) then
          .error "Amounts do not net a 1/tx burn + 1/input fee"
        else if tx.hash ≠ c.sha256 (serTxNoHashNoSigs
            (tx.inputs.map (fun i => (i.hash, i.index))) vouts) then
          .error "Bad tx hash"
        else
          match valSigs c tx.hash utxos tx.inputs idxs with
          | .error e => .error e
          | .ok () =>
            .ok ({inputs := tx.inputs.map (fun i => ⟨i.hash, i.index, i.signature⟩),
                  outputs := vouts, hash := tx.hash}, idxs)

/-- The new UTXOs the commit pushes, one per output (txs.js lines 238-245). -/
def mkNewUTXOs (t : Tx) : List UTXO :=
  t.outputs.enum.map (fun p => ⟨t.hash, (p.1 : Int), p.2.publicKey, p.2.amount⟩)

/-- txs.js addTx.  A coinbase-shaped value fails the Object.keys check (line
174).  On success the commit pushes the validated transaction onto the block
and splices the collected indexes out of the UTXO array one by one, in input
order, each splice acting on the already shifted array exactly as
Array.prototype.splice does, then pushes one UTXO per output. -/
def txsAddTx (c : Crypto) : BTx → Block → List UTXO →
    Except String Unit × Block × List UTXO
  | .coinbase _, blk, utxos => (.error "Bad structure", blk, utxos)
  | .user tx, blk, utxos =>
    match validateTxUser c tx utxos with
    | .error e => (.error e, blk, utxos)
    | .ok (vtx, idxs) =>
      (.ok (), {blk with txs := blk.txs ++ [.user vtx]},
        (idxs.foldl (fun l i => l.eraseIdx i) utxos) ++ mkNewUTXOs vtx)

/-- The coinbase reward base: block.txs.reduce((count, tx) => count +
tx.inputs.length, 0).  When addCoinbase runs, the building block holds only
user transactions; a coinbase there would make the JS reduce throw. -/
def sumInputs (txs : List BTx) : Int :=
  txs.foldl (fun acc t => acc + match t with
    | .user u => (u.inputs.length : Int)
    | .coinbase _ => 0) 0

/-- txs.js addCoinbase: validates the single-output coinbase against the block
being built and commits it with its UTXO.  A user-shaped value fails the
Object.keys check.  All throws precede the commit. -/
def addCoinbaseE (c : Crypto) : BTx → Block → List UTXO →
    Except String (Block × List UTXO)
  | .user _, _, _ => .error "Bad coinbase structure"
  | .coinbase cb, blk, utxos =>
    match cb.outputs with
    | [output] =>
      if !(isHexStr 66 output.publicKey) then .error "Bad public key string"
      else if !(c.validPoint output.publicKey) then .error "Bad public key"
      else if output.amount ≠ 10 + sumInputs blk.txs then .error "Bad amount"
      else if cb.hash ≠ c.sha256 (toString blk.time ++
          serCoinbaseNoHash [⟨output.publicKey, output.amount⟩]) then
        .error "Bad hash"
      else
        .ok ({blk with txs :=
            blk.txs ++ [.coinbase ⟨[⟨output.publicKey, output.amount⟩], cb.hash⟩]},
          utxos ++ [⟨cb.hash, 0, output.publicKey, output.amount⟩])
    | _ => .error "Bad coinbase outputs array"

/-! ## blocks.js -/

def genesisTxOutputs (c : Crypto) : List Output := [⟨c.genesisPublicKey, 10⟩]

/-- blocks.js lines 28-34: the genesis transaction, hashed with the literal
prefix "0". -/
def genesisTx (c : Crypto) : Coinbase :=
  ⟨genesisTxOutputs c, c.sha256 ("0" ++ serCoinbaseNoHash (genesisTxOutputs c))⟩

/-- blocks.js lines 37-42: the genesis block, hashed without a previous-hash
prefix. -/
def genesisBlock (c : Crypto) : Block :=
  ⟨0, [.coinbase (genesisTx c)], 0,
    c.sha256 (serBlockNoHash 0 [.coinbase (genesisTx c)] 0)⟩

/-- blocks.js lines 49-54: the genesis UTXO set. -/
def genesisUTXOs (c : Crypto) : List UTXO :=
  [⟨(genesisTx c).hash, 0, c.genesisPublicKey, 10⟩]

/-- The loop of blocks.js lines 75-77: run addTx for each non-coinbase
transaction against the working block and working UTXO copy, aborting on the
first validator throw. -/
def addTxs (c : Crypto) : List BTx → Block → List UTXO → Except String (Block × List UTXO)
  | [], blk, u => .ok (blk, u)
  | t :: rest, blk, u =>
    match txsAddTx c t blk u with
    | (.error e, _, _) => .error e
    | (.ok (), blk', u') => addTxs c rest blk' u'

/-- The validation phase of blocks.js addBlock (lines 59-86): structural
checks, the time window against nowMs (Date.now() in milliseconds; the source
compares block.time > 10 + Date.now() / 1000, scaled here by 1000 to stay in
integers), the rebuild of every transaction and the coinbase into a working
block over a working UTXO copy, the hash check over the rebuilt block, and the
difficulty check.  An empty chain would make the JS dereference of
chain[chain.length - 1] throw. -/
def addBlockAux (c : Crypto) (b : Block) (chain : List Block) (utxos : List UTXO)
    (nowMs : Int) : Except String (Block × List UTXO) :=
  if !(isSafeInt b.time && decide (0 ≤ b.time)) then .error "Bad time integer"
  else if b.txs.length < 1 then .error "Bad txs array"
  else if !(isSafeInt b.nonce && decide (0 ≤ b.nonce)) then .error "Bad nonce integer"
  else if !(isHexStr 64 b.hash) then .error "Bad hash string"
  else
    match chain.getLast? with
    | none => .error "TypeError: prevBlock is undefined"
    | some prev =>
      if b.time ≤ prev.time ∨ 10000 + nowMs < 1000 * b.time then .error "Bad time"
      else
        match addTxs c b.txs.dropLast ⟨b.time, [], 0, ""⟩ utxos with
        | .error e => .error e
        | .ok (vblk, vu) =>
          match b.txs.getLast? with
          | none => .error "Bad txs array"
          | some last =>
            match addCoinbaseE c last vblk vu with
            | .error e => .error e
            | .ok (vblk2, vu2) =>
              if b.hash ≠ c.sha256 (prev.hash ++ serBlockNoHash vblk2.time vblk2.txs b.nonce) then
                .error "Bad hash"
              else if blockDifficulty b < nextDifficulty chain then
                .error "Not enough difficulty"
              else .ok ({vblk2 with nonce := b.nonce, hash := b.hash}, vu2)

/-- blocks.js addBlock: on success push the rebuilt block and replace the UTXO
array contents with the working copy (lines 89-91); on a throw the chain and
UTXO set are returned unchanged. -/
def addBlock (c : Crypto) (b : Block) (chain : List Block) (utxos : List UTXO)
    (nowMs : Int) : Except String Unit × List Block × List UTXO :=
  match addBlockAux c b chain utxos nowMs with
  | .error e => (.error e, chain, utxos)
  | .ok (vb, vu) => (.ok (), chain ++ [vb], vu)

/-- The loop of blocks.js lines 103-105: run addBlock over the candidate tail,
threading the rebuilt chain and UTXO set, aborting on the first throw. -/
def addBlocks (c : Crypto) (nowMs : Int) :
    List Block → List Block → List UTXO → Except String (List Block × List UTXO)
  | [], ch, u => .ok (ch, u)
  | b :: rest, ch, u =>
    match addBlock c b ch u nowMs with
    | (.error e, _, _) => .error e
    | (.ok (), ch', u') => addBlocks c nowMs rest ch' u'

/-- blocks.js swapChains: rebuild the candidate from fresh genesis copies
(the element at index 0 of the candidate is never read), compare cumulative
difficulties with a binary64 subtraction, swap the node state when the
increase is strictly positive, and return the increase. -/
def swapChains (c : Crypto) (cand : List Block) (nowMs : Int) (st : NodeState) :
    Except String Int × NodeState :=
  match addBlocks c nowMs (cand.drop 1) [genesisBlock c] (genesisUTXOs c) with
  | .error e => (.error e, st)
  | .ok (v, vu) =>
    let increase := rneInt ((chainDifficulty v : Int) - (chainDifficulty st.chain : Int))
    if 0 < increase then (.ok increase, ⟨v, vu⟩) else (.ok increase, st)

/-! ## wallet.js -/

/-- The input-selection loop of wallet.js lines 25-32 over the already
filtered UTXO list: push each UTXO, accumulate its amount, and break as soon
as the running total covers amountSent + 1 burn + 1 fee per input pushed so
far.  Returns the selected UTXOs and the final running total. -/
def selectInputs (amountSent : Int) : List UTXO → Int → Nat → List UTXO × Int
  | [], amountIn, _ => ([], amountIn)
  | u :: rest, amountIn, n =>
    let amountIn' := amountIn + u.amount
    if amountSent + 1 + ((n : Int) + 1) ≤ amountIn' then ([u], amountIn')
    else
      let s := selectInputs amountSent rest amountIn' (n + 1)
      (u :: s.1, s.2)

/-- wallet.js makeTx: Except.error is the throw on amountSent <= 2, ok none is
the return false on insufficient funds, ok (some tx) is the built transaction:
the sent output, the selected inputs, the change output when the change
exceeds 1, the hash over the unsigned transaction, and one wallet signature
per input over that hash. -/
def makeTx (c : Crypto) (w : Wallet) (amountSent : Int) (publicKey : String)
    (utxos : List UTXO) : Except String (Option Tx) :=
  if amountSent ≤ 2 then .error "Amount sent is zero after fees"
  else
    let own := utxos.filter (fun x => x.publicKey == w.publicKey)
    let s := selectInputs amountSent own 0 0
    let chosen := s.1
    let amountInput := s.2
    if amountInput < amountSent + 1 + (chosen.length : Int) then .ok none
    else
      let amountChange := amountInput - amountSent - 1 - (chosen.length : Int)
      let outputs : List Output :=
        ⟨publicKey, amountSent⟩ ::
          (if 1 < amountChange then [⟨w.publicKey, amountChange⟩] else [])
      let txHash := c.sha256 (serTxNoHashNoSigs (chosen.map (fun u => (u.hash, u.index))) outputs)
      .ok (some ⟨chosen.map (fun u => ⟨u.hash, u.index, w.sign txHash⟩), outputs, txHash⟩)

/-! ## pool.js -/

/-- The building block pool.js passes to the validator for its dry run: the
object literal containing only an empty txs array. -/
def dummyBlock : Block := ⟨0, [], 0, ""⟩

/-- The claim-collection loop of pool.js lines 42-47: for each input, find its
UTXO in the chain UTXO set (a failed find would make the JS dereference of
UTXO.hash throw), return false at the first (hash, index) already present in
usedUTXOs, otherwise collect the found UTXOs in order. -/
def collectClaims : List TxInput → List UTXO → List UTXO → List UTXO →
    Except String (Option (List UTXO))
  | [], _, _, acc => .ok (some acc)
  | input :: rest, utxos, used, acc =>
    match findFrom (matchUTXO input.hash input.index) utxos with
    | none => .error "TypeError: UTXO is undefined"
    | some u =>
      if (findFrom (matchUTXO u.hash u.index) used).isSome then .ok none
      else collectClaims rest utxos used (acc ++ [u])

/-- pool.js addTx: dry-run the validator on a dummy block and a slice of the
UTXO array (both discarded), then check the pool claims; ok false is the
silent duplicate-claim rejection, ok true commits the transaction and its
input claims.  The second component is the caller-visible UTXO array after
the call. -/
def poolAddTx (c : Crypto) (bt : BTx) (utxos : List UTXO) (ps : PoolState) :
    Except String Bool × List UTXO × PoolState :=
  match (txsAddTx c bt dummyBlock utxos).1 with
  | .error e => (.error e, utxos, ps)
  | .ok () =>
    match bt with
    | .coinbase _ => (.error "Bad structure", utxos, ps)
    | .user tx =>
      match collectClaims tx.inputs utxos ps.usedUTXOs [] with
      | .error e => (.error e, utxos, ps)
      | .ok none => (.ok false, utxos, ps)
      | .ok (some inputUTXOs) =>
        (.ok true, utxos, ⟨ps.txs ++ [tx], ps.usedUTXOs ++ inputUTXOs⟩)

/-- pool.js findTxIndex: the index of the first pooled transaction having an
input with the given (hash, index), or -1. -/
def findTxIndex (u : UTXO) (txs : List Tx) : Int :=
  match findIdxFrom (fun t => t.inputs.any (fun i =>
    decide (i.hash = u.hash ∧ i.index = u.index))) txs with
  | some i => (i : Int)
  | none => -1

/-- pool.js removeBlockTxs.  For each input of each non-coinbase transaction
of the block: find the matching usedUTXOs entry; when present, locate the
pooled transaction claiming it and, for each input of that pooled transaction,
execute usedUTXOs.splice(usedUTXOs.find(...), 1) - Array.prototype.splice
coerces the found object (or undefined) through Number to NaN and then to
index 0, so each such splice removes the first element of usedUTXOs - and
finally splice the pooled transaction out by its index.  A coinbase before the
last position would make the JS loop over tx.inputs throw; such blocks never
reach this function. -/
def removeBlockTxs (block : Block) (ps : PoolState) : PoolState :=
  block.txs.dropLast.foldl (fun ps bt =>
    (match bt with
      | .user t => t.inputs
      | .coinbase _ => []).foldl (fun (ps : PoolState) (input : TxInput) =>
      match findFrom (matchUTXO input.hash input.index) ps.usedUTXOs with
      | none => ps
      | some usedUTXO =>
        let removedTxIndex := findTxIndex usedUTXO ps.txs
        if 0 ≤ removedTxIndex then
          let removedTx := ps.txs.getD removedTxIndex.toNat dfltTx
          ⟨ps.txs.eraseIdx removedTxIndex.toNat,
            removedTx.inputs.foldl (fun l _ => l.tail) ps.usedUTXOs⟩
        else ps) ps) ps

/-! ## Specification-side definitions

These follow the wording of the specification, for comparison with the
source-side functions above. -/

/-- The 256-bit binary expansion of a hex string: the four bits of each hex
digit, most significant first (non-hex characters contribute nothing; the
claims only use this on 64-character lowercase hex strings). -/
def hexBits (s : String) : List Bool :=
  s.data.flatMap (fun ch =>
    match hexVal ch with
    | some v => [v.testBit 3, v.testBit 2, v.testBit 1, v.testBit 0]
    | none => [])

/-- The number of leading zero bits of the 256-bit expansion of a hash as the
specification describes it: the position of the first one bit, or 256 for the
all-zero expansion. -/
def specLeadingZeros (s : String) : Nat :=
  (findIdxFrom (fun b => b) (hexBits s)).getD 256

/-- Whether some input of the transaction is already claimed by (hash, index)
in a usedUTXOs list: the rejection condition of pool.js addTx. -/
def claimsOverlap (tx : Tx) (used : List UTXO) : Bool :=
  tx.inputs.any (fun i => used.any (matchUTXO i.hash i.index))

/-- The chain UTXOs the pool records as claims for a transaction, in input
order: the first UTXO matching each input key. -/
def poolClaimUTXOs (tx : Tx) (utxos : List UTXO) : List UTXO :=
  tx.inputs.map (fun i => (findFrom (matchUTXO i.hash i.index) utxos).getD dfltUTXO)

/-- Node states reachable from the genesis state through successful addBlock
commits, every commit happening at some instant no later than T milliseconds.
This is what "the node's own current chain" ranges over. -/
inductive Built (c : Crypto) : List Block → List UTXO → Int → Prop where
  | genesis (T : Int) : Built c [genesisBlock c] (genesisUTXOs c) T
  | step {ch : List Block} {u : List UTXO} {T t : Int} {b : Block} {ch' : List Block}
      {u' : List UTXO} : Built c ch u T → t ≤ T →
      addBlock c b ch u t = (.ok (), ch', u') → Built c ch' u' T

/-! ## Concrete scenario data for the closed theorems -/

def hexZeros : String := String.mk (List.replicate 64 '0')

def demoPkW : String := "02" ++ String.mk (List.replicate 64 '3')

def demoPkR : String := "03" ++ String.mk (List.replicate 64 '4')

def demoSig : String := String.mk (List.replicate 20 'a')

def demoTxHash : String := String.mk (List.replicate 64 'e')

/-- A crypto instance whose hash is constant and whose point and signature
checks accept: enough for scenarios that never reach, or always pass, those
checks. -/
def demoC : Crypto := ⟨fun _ => demoTxHash, fun _ => true, fun _ _ _ => true, demoPkW⟩

def demoW : Wallet := ⟨demoPkW, fun _ => demoSig⟩

/-- One wallet-owned UTXO of amount 6: sending 3 from it leaves change
6 - 3 - 1 - 1 = 1. -/
def changeOneUTXOs : List UTXO := [⟨hexZeros, 0, demoPkW, 6⟩]

/-- The transaction makeTx builds in the change-one scenario: one input, only
the sent output, hash from the constant demo sha256. -/
def changeOneTx : Tx := ⟨[⟨hexZeros, 0, demoSig⟩], [⟨demoPkR, 3⟩], demoTxHash⟩

def hashA : String := String.mk (List.replicate 64 '1')

def hashB : String := String.mk (List.replicate 64 '2')

def hashC : String := String.mk (List.replicate 64 '3')

def spliceTxHash : String := String.mk (List.replicate 64 'd')

def spliceC : Crypto := ⟨fun _ => spliceTxHash, fun _ => true, fun _ _ _ => true, demoPkW⟩

def utxoA : UTXO := ⟨hashA, 0, demoPkW, 3⟩

def utxoB : UTXO := ⟨hashB, 0, demoPkW, 2⟩

def utxoC : UTXO := ⟨hashC, 0, demoPkR, 9⟩

/-- A valid transaction spending utxoA and utxoB (net 3 + 2 - 2 = 3 =
1 burn + 2 fees). -/
def spliceTx : Tx := ⟨[⟨hashA, 0, demoSig⟩, ⟨hashB, 0, demoSig⟩], [⟨demoPkR, 2⟩], spliceTxHash⟩

/-- Pool entry spending utxoA only. -/
def poolTx1 : Tx := ⟨[⟨hashA, 0, demoSig⟩], [⟨demoPkR, 2⟩], "t1"⟩

/-- Pool entry spending utxoB only. -/
def poolTx2 : Tx := ⟨[⟨hashB, 0, demoSig⟩], [⟨demoPkR, 2⟩], "t2"⟩

/-- A mined transaction spending utxoB (a different object than poolTx2, as
when a peer mines a conflicting spend). -/
def minedTx : Tx := ⟨[⟨hashB, 0, demoSig⟩], [⟨demoPkW, 2⟩], "m"⟩

def minedBlock : Block := ⟨1, [.user minedTx, .coinbase ⟨[⟨demoPkW, 11⟩], "cb"⟩], 0, "x"⟩

def evictPool : PoolState := ⟨[poolTx1, poolTx2], [⟨hashA, 0, demoPkW, 3⟩, ⟨hashB, 0, demoPkW, 2⟩]⟩

/-- A 64-character hex hash with exactly 54 leading zero bits (13 zero nibbles
then the nibble 0010). -/
def hash54 : String := String.mk (List.replicate 13 '0' ++ '2' :: List.replicate 50 '8')

def stallPrev : Block := ⟨0, [.coinbase ⟨[], "x"⟩], 0, hash54⟩

def stallPk : String := "02" ++ String.mk (List.replicate 64 '5')

def stallCb : Coinbase := ⟨[⟨stallPk, 10⟩], String.mk (List.replicate 64 'b')⟩

def stallCbPre : String := toString (7 : Int) ++ serCoinbaseNoHash [⟨stallPk, 10⟩]

def stallBlockHash : String := String.mk (List.replicate 64 '8')

def stallBlockPre : String := hash54 ++ serBlockNoHash 7 [.coinbase stallCb] 9

/-- An easy previous block of difficulty 0, for the small-sum scenario. -/
def easyPrev : Block := ⟨0, [.coinbase ⟨[], "x"⟩], 0, stallBlockHash⟩

def easyBlockHash : String := String.mk (List.replicate 64 '9')

def easyBlockPre : String := stallBlockHash ++ serBlockNoHash 7 [.coinbase stallCb] 9

/-- A crypto instance hashing the three preimages of the difficulty scenarios
to the intended digests. -/
def stallC : Crypto :=
  ⟨fun s =>
    if s = stallCbPre then stallCb.hash
    else if s = stallBlockPre then stallBlockHash
    else if s = easyBlockPre then easyBlockHash
    else "", fun _ => true, fun _ _ _ => true, stallPk⟩

/-- The appended block of difficulty 0 in the stall scenario. -/
def stallNext : Block := ⟨7, [.coinbase stallCb], 9, stallBlockHash⟩

/-- The appended block of difficulty 0 in the small-sum scenario. -/
def easyNext : Block := ⟨7, [.coinbase stallCb], 9, easyBlockHash⟩

/-- A 64-character hex hash whose first one bit is at position 4. -/
def hash0f : String := "0f" ++ String.mk (List.replicate 62 '0')

/-- A transaction with no inputs: fails validation at the first check. -/
def noInputsTx : Tx := ⟨[], [⟨demoPkR, 2⟩], "h"⟩

/-- A block with a negative timestamp: addBlock rejects it first. -/
def negTimeBlock : Block := ⟨-1, [.coinbase ⟨[], "x"⟩], 0, hexZeros⟩

/-- A block whose hash is not 64 hex characters: addBlock rejects it before
touching any state. -/
def badHashBlock : Block := ⟨5, [.coinbase ⟨[], "x"⟩], 0, "zz"⟩

/-- One wallet-owned UTXO of amount 5 and a transaction spending it exactly
(net 5 - 3 = 2 = 1 burn + 1 fee): validates under demoC. -/
def poolUTXOs : List UTXO := [⟨hexZeros, 0, demoPkW, 5⟩]

def poolOkTx : Tx := ⟨[⟨hexZeros, 0, demoSig⟩], [⟨demoPkR, 3⟩], demoTxHash⟩

/-- A pool state already claiming the (hash, index) poolOkTx spends. -/
def claimedPool : PoolState := ⟨[], [⟨hexZeros, 0, demoPkW, 5⟩]⟩

/-- The genesis node state over the demo crypto. -/
def demoGenesisState : NodeState := ⟨[genesisBlock demoC], genesisUTXOs demoC⟩

/-! ## Difficulty clamping (C8) -/

lemma clampIte_bounds (a : Int) :
    0 ≤ (if a < 0 then 0 else if 256 < a then 256 else a)
  ∧ (if a < 0 then 0 else if 256 < a then 256 else a) ≤ 256 := by
  split
  · exact ⟨le_refl 0, by norm_num⟩
  · split
    · norm_num
    · omega

lemma clampStep_bounds (d i : Int) : 0 ≤ clampStep d i ∧ clampStep d i ≤ 256 := by
  unfold clampStep
  exact clampIte_bounds _

lemma nextDifficulty_fold_bounds (l : List (Block × Block)) :
    ∀ d : Int, 0 ≤ d → d ≤ 256 →
      0 ≤ l.foldl (fun d p => clampStep d (p.2.time - p.1.time)) d
    ∧ l.foldl (fun d p => clampStep d (p.2.time - p.1.time)) d ≤ 256 := by
  induction l with
  | nil => exact fun d h1 h2 => ⟨h1, h2⟩
  | cons p l ih =>
    intro d _ _
    simp only [List.foldl_cons]
    exact ih _ (clampStep_bounds _ _).1 (clampStep_bounds _ _).2

/-- C8: nextDifficulty starts its accumulator at 0, adjusts by one per
interval and clamps to [0, 256] after each step, so its value lies in
[0, 256] for every chain and for every prefix of every chain. -/
theorem nextDifficulty_clamped (chain : List Block) (k : Nat) :
    (0 ≤ nextDifficulty chain ∧ nextDifficulty chain ≤ 256)
  ∧ (0 ≤ nextDifficulty (chain.take k) ∧ nextDifficulty (chain.take k) ≤ 256) :=
  ⟨nextDifficulty_fold_bounds _ 0 (le_refl 0) (by norm_num),
   nextDifficulty_fold_bounds _ 0 (le_refl 0) (by norm_num)⟩

/-! ## Pool frame property (C10) -/

/-- C10: pool.addTx never mutates the UTXO set argument: the validator dry
run receives a slice, so the caller-visible UTXO array is unchanged whether
the transaction is accepted, rejected as a duplicate claim, or fails
validation. -/
theorem poolAddTx_preserves_utxos (c : Crypto) (bt : BTx) (utxos : List UTXO)
    (ps : PoolState) : (poolAddTx c bt utxos ps).2.1 = utxos := by
  unfold poolAddTx
  split
  · rfl
  · split
    · rfl
    · split <;> rfl

/-! ## Failed validation leaves shared state unchanged (C3) -/

/-- C3: whenever addTx, addBlock or swapChains reports a validation error,
the shared state each one mutates on success (the block and UTXO set of
addTx, the chain and UTXO set of addBlock, the node state of swapChains) is
returned exactly as it was passed in. -/
theorem validation_failure_frame :
    (∀ (c : Crypto) (bt : BTx) (blk : Block) (utxos : List UTXO) (e : String),
        (txsAddTx c bt blk utxos).1 = .error e →
        (txsAddTx c bt blk utxos).2 = (blk, utxos))
  ∧ (∀ (c : Crypto) (b : Block) (chain : List Block) (utxos : List UTXO)
        (nowMs : Int) (e : String),
        (addBlock c b chain utxos nowMs).1 = .error e →
        (addBlock c b chain utxos nowMs).2 = (chain, utxos))
  ∧ (∀ (c : Crypto) (cand : List Block) (nowMs : Int) (st : NodeState) (e : String),
        (swapChains c cand nowMs st).1 = .error e →
        (swapChains c cand nowMs st).2 = st) := by
  refine ⟨fun c bt blk utxos e h => ?_, fun c b chain utxos nowMs e h => ?_,
    fun c cand nowMs st e h => ?_⟩
  · cases bt with
    | coinbase cb => rfl
    | user tx =>
      rcases hv : validateTxUser c tx utxos with e2 | ⟨vtx, idxs⟩
      · simp only [txsAddTx, hv]
      · simp only [txsAddTx, hv] at h
        exact absurd h (by simp)
  · unfold addBlock at h ⊢
    split at h <;> try rfl
    · exact Except.noConfusion h
  · unfold swapChains at h ⊢
    split at h <;> try rfl
    · dsimp only at h ⊢
      split at h <;> simp at h

/-- Witness for C3: a transaction with no inputs, a block with a negative
timestamp, and a candidate chain containing a block with a malformed hash all
abort with the expected errors and hand back the untouched state. -/
theorem validation_failure_frame_witness :
    ((txsAddTx demoC (.user noInputsTx) dummyBlock []).1 = .error "Bad inputs array"
      ∧ (txsAddTx demoC (.user noInputsTx) dummyBlock []).2 = (dummyBlock, []))
  ∧ ((addBlock demoC negTimeBlock [] [] 0).1 = .error "Bad time integer"
      ∧ (addBlock demoC negTimeBlock [] [] 0).2 = ([], []))
  ∧ ((swapChains demoC [dummyBlock, badHashBlock] 0 ⟨[], []⟩).1 = .error "Bad hash string"
      ∧ (swapChains demoC [dummyBlock, badHashBlock] 0 ⟨[], []⟩).2 = ⟨[], []⟩) :=
  ⟨⟨rfl, validation_failure_frame.1 demoC (.user noInputsTx) dummyBlock [] _ rfl⟩,
   ⟨rfl, validation_failure_frame.2.1 demoC negTimeBlock [] [] 0 _ rfl⟩,
   ⟨rfl, validation_failure_frame.2.2 demoC [dummyBlock, badHashBlock] 0 ⟨[], []⟩ _ rfl⟩⟩

/-! ## Wallet change of one unit is rejected by the validator (C1) -/

/-- C1 (failing input): with one owned UTXO of amount 6 and amountSent 3 the
wallet computes change 6 - 3 - 1 - 1 = 1, omits the change output, and the
resulting transaction nets 3 instead of the exact 1 burn + 1 fee the
validator demands, so addTx against the very same UTXO set throws instead of
accepting. -/
theorem makeTx_change_one_rejected :
    makeTx demoC demoW 3 demoPkR changeOneUTXOs = .ok (some changeOneTx)
  ∧ (txsAddTx demoC (.user changeOneTx) dummyBlock changeOneUTXOs).1 =
      .error "Amounts do not net a 1/tx burn + 1/input fee"
  ∧ (txsAddTx demoC (.user changeOneTx) dummyBlock changeOneUTXOs).2 =
      (dummyBlock, changeOneUTXOs) :=
  ⟨rfl, rfl, rfl⟩

/-! ## Committed UTXO removal uses stale indexes (C2) -/

/-- C2 (failing input): spliceTx spends utxoA (index 0) and utxoB (index 1)
out of [utxoA, utxoB, utxoC] and is accepted, but the commit splices the
collected indexes one after the other on the shifting array: after removing
index 0 the second splice at index 1 removes the unrelated utxoC, so spent
utxoB survives in the UTXO set and unrelated utxoC disappears, instead of the
claimed [utxoC] plus the new output UTXO. -/
theorem txsAddTx_removes_unrelated :
    (txsAddTx spliceC (.user spliceTx) dummyBlock [utxoA, utxoB, utxoC]).1 = .ok ()
  ∧ (txsAddTx spliceC (.user spliceTx) dummyBlock [utxoA, utxoB, utxoC]).2.2 =
      [utxoB, ⟨spliceTxHash, 0, demoPkR, 2⟩]
  ∧ (txsAddTx spliceC (.user spliceTx) dummyBlock [utxoA, utxoB, utxoC]).2.2 ≠
      [utxoC, ⟨spliceTxHash, 0, demoPkR, 2⟩] :=
  ⟨rfl, rfl, by decide⟩

/-! ## Pool eviction releases the wrong claims (C4) -/

/-- C4 (failing input): the pool holds poolTx1 claiming (hashA, 0) and
poolTx2 claiming (hashB, 0); a block confirms a conflicting spend of
(hashB, 0).  removeBlockTxs removes poolTx2, but the claim release executes
usedUTXOs.splice(find-result, 1), and splice coerces the found object to
index 0: it releases (hashA, 0), the claim of the surviving poolTx1, and
keeps (hashB, 0), the claim of the removed entry, instead of the claimed
remainder [(hashA, 0)]. -/
theorem removeBlockTxs_wrong_claim_released :
    removeBlockTxs minedBlock evictPool = ⟨[poolTx1], [⟨hashB, 0, demoPkW, 2⟩]⟩
  ∧ (removeBlockTxs minedBlock evictPool).usedUTXOs ≠ [⟨hashA, 0, demoPkW, 3⟩] :=
  ⟨rfl, by decide⟩

/-! ## blockDifficulty counts leading zero bits (C7) -/

lemma flatMap_map_shift {α β γ : Type} (l : List α) (f : α → β) (g : β → List γ) :
    (l.map f).flatMap g = l.flatMap (fun a => g (f a)) := by
  induction l with
  | nil => rfl
  | cons a t ih => simp [List.flatMap_cons, ih]

lemma flatMap_congr_mem {α β : Type} (l : List α) (f g : α → List β)
    (h : ∀ a ∈ l, f a = g a) : l.flatMap f = l.flatMap g := by
  induction l with
  | nil => rfl
  | cons a t ih =>
    simp only [List.flatMap_cons]
    rw [h a (List.mem_cons_self a t), ih (fun x hx => h x (List.mem_cons_of_mem a hx))]

lemma flatMap_comm_map {α β γ : Type} (l : List α) (g : α → List β) (f : β → γ) :
    (l.flatMap fun a => (g a).map f) = (l.flatMap g).map f := by
  induction l with
  | nil => rfl
  | cons a t ih => simp [List.flatMap_cons, ih]

lemma range_flatMap_getElem (F : Option Char → List Char) (l : List Char) :
    (List.range l.length).flatMap (fun i => F l[i]?) = l.flatMap (fun a => F (some a)) := by
  induction l with
  | nil => rfl
  | cons a t ih =>
    have h1 : List.range (a :: t).length = 0 :: (List.range t.length).map (· + 1) := by
      simp [List.range_succ_eq_map, Nat.succ_eq_add_one]
    rw [h1, List.flatMap_cons, flatMap_map_shift]
    simp only [List.getElem?_cons_zero, List.getElem?_cons_succ]
    rw [ih, List.flatMap_cons]

lemma range_flatMap_hex (l : List Char) :
    ((List.range l.length).flatMap fun i =>
      match l[i]? with
      | some ch =>
        match hexVal ch with
        | some v => nibbleBinChars v
        | none => ['0', 'N', 'a', 'N']
      | none => ['0', 'N', 'a', 'N']) =
    l.flatMap (fun a =>
      match hexVal a with
      | some v => nibbleBinChars v
      | none => ['0', 'N', 'a', 'N']) :=
  range_flatMap_getElem (fun o =>
    match o with
    | some ch =>
      match hexVal ch with
      | some v => nibbleBinChars v
      | none => ['0', 'N', 'a', 'N']
    | none => ['0', 'N', 'a', 'N']) l

lemma hexVal_isSome {ch : Char} (h : isHexChar ch = true) : ∃ v, hexVal ch = some v := by
  unfold isHexChar at h
  rw [decide_eq_true_eq] at h
  unfold hexVal
  split
  · exact ⟨_, rfl⟩
  · split
    · exact ⟨_, rfl⟩
    · split
      · exact ⟨_, rfl⟩
      · rename_i h1 h2 _
        exact absurd h (by tauto)

lemma findIdxFrom_map_bitChar (bs : List Bool) :
    findIdxFrom (fun ch => ch == '1') (bs.map bitChar) = findIdxFrom (fun b => b) bs := by
  induction bs with
  | nil => rfl
  | cons b t ih => cases b <;> simp [findIdxFrom, bitChar, ih]

lemma findIdxFrom_isSome_of_contains {l : List Bool} (h : l.contains true = true) :
    ∃ k, findIdxFrom (fun b => b) l = some k := by
  induction l with
  | nil => simp [List.contains] at h
  | cons b t ih =>
    cases b with
    | true => exact ⟨0, rfl⟩
    | false =>
      have ht : t.contains true = true := by simpa [List.contains] using h
      obtain ⟨k, hk⟩ := ih ht
      exact ⟨k + 1, by simp [findIdxFrom, hk]⟩

/-- C7 (amended): for every block whose hash is a 64-character lowercase hex
string with at least one nonzero bit, blockDifficulty equals the number of
leading zero bits of the 256-bit binary expansion of the hash; the all-zero
hash is the exception the counterexample exhibits. -/
theorem blockDifficulty_leading_zeros (b : Block) (hhex : isHexStr 64 b.hash = true)
    (hbit : (hexBits b.hash).contains true = true) :
    blockDifficulty b = (specLeadingZeros b.hash : Int) := by
  have hlen : b.hash.data.length = 64 := by
    unfold isHexStr at hhex
    rw [Bool.and_eq_true, beq_iff_eq] at hhex
    exact hhex.1
  have hall : ∀ ch ∈ b.hash.data, isHexChar ch = true := by
    unfold isHexStr at hhex
    rw [Bool.and_eq_true, List.all_eq_true] at hhex
    exact hhex.2
  simp only [blockDifficulty]
  rw [← hlen, range_flatMap_hex]
  have hstep : b.hash.data.flatMap (fun a =>
        match hexVal a with
        | some v => nibbleBinChars v
        | none => ['0', 'N', 'a', 'N']) =
      (hexBits b.hash).map bitChar := by
    unfold hexBits
    rw [← flatMap_comm_map]
    refine flatMap_congr_mem _ _ _ (fun a ha => ?_)
    obtain ⟨v, hv⟩ := hexVal_isSome (hall a ha)
    simp [hv, nibbleBinChars, List.map]
  rw [hstep, findIdxFrom_map_bitChar]
  obtain ⟨k, hk⟩ := findIdxFrom_isSome_of_contains hbit
  rw [hk]
  unfold specLeadingZeros
  rw [hk]
  rfl

/-- Witness for C7: the hash 0f00...0 has 4 leading zero bits and
blockDifficulty reports exactly that. -/
theorem blockDifficulty_leading_zeros_witness :
    isHexStr 64 hash0f = true ∧ (hexBits hash0f).contains true = true
  ∧ specLeadingZeros hash0f = 4
  ∧ blockDifficulty ⟨0, [], 0, hash0f⟩ = (specLeadingZeros hash0f : Int) :=
  ⟨by decide, by decide, by decide,
    blockDifficulty_leading_zeros ⟨0, [], 0, hash0f⟩ (by decide) (by decide)⟩

/-- C7 (counterexample): on the all-zero hash the binary string contains no
one bit, indexOf returns -1, and blockDifficulty is -1 instead of the 256
leading zero bits of the all-zero 256-bit expansion. -/
theorem blockDifficulty_zero_hash_mismatch :
    blockDifficulty ⟨0, [], 0, hexZeros⟩ = -1
  ∧ specLeadingZeros hexZeros = 256
  ∧ blockDifficulty ⟨0, [], 0, hexZeros⟩ ≠ (specLeadingZeros hexZeros : Int) :=
  ⟨by decide, by decide, by decide⟩

/-! ## Shape of successful commits

A successful addTx pushes a transaction equal field-for-field to its argument,
and a successful addBlock pushes a block equal field-for-field to its
argument; these lemmas make that explicit. -/

lemma map_eta_inputs (l : List TxInput) :
    l.map (fun i => (⟨i.hash, i.index, i.signature⟩ : TxInput)) = l := by
  induction l with
  | nil => rfl
  | cons a t ih => simp [ih]

lemma valOutputs_ok_outs (c : Crypto) :
    ∀ (outs : List Output) (net : Int) (l : List Output) (n : Int),
      valOutputs c outs net = .ok (l, n) → l = outs := by
  intro outs
  induction outs with
  | nil =>
    intro net l n h
    simp only [valOutputs, Except.ok.injEq, Prod.mk.injEq] at h
    exact h.1.symm
  | cons o rest ih =>
    intro net l n h
    simp only [valOutputs] at h
    split at h
    · exact Except.noConfusion h
    · split at h
      · exact Except.noConfusion h
      · split at h
        · exact Except.noConfusion h
        · split at h
          · exact Except.noConfusion h
          · rename_i l' n' heq
            rw [Except.ok.injEq, Prod.mk.injEq] at h
            rw [← h.1, ih _ _ _ heq]

lemma validateTxUser_ok_tx (c : Crypto) (tx : Tx) (utxos : List UTXO)
    (vtx : Tx) (idxs : List Nat) (h : validateTxUser c tx utxos = .ok (vtx, idxs)) :
    vtx = tx := by
  obtain ⟨ins, outs, hs⟩ := tx
  unfold validateTxUser at h
  split at h
  · exact Except.noConfusion h
  · split at h
    · exact Except.noConfusion h
    · split at h
      · exact Except.noConfusion h
      · split at h
        · exact Except.noConfusion h
        · split at h
          · exact Except.noConfusion h
          · split at h
            · exact Except.noConfusion h
            · split at h
              · exact Except.noConfusion h
              · rw [Except.ok.injEq, Prod.mk.injEq] at h
                rw [← h.1, map_eta_inputs]
                have houts : _ = outs := valOutputs_ok_outs c outs _ _ _ (by assumption)
                rw [houts]

lemma txsAddTx_ok_blk (c : Crypto) (bt : BTx) (blk : Block) (utxos : List UTXO)
    (blk' : Block) (u' : List UTXO) (h : txsAddTx c bt blk utxos = (.ok (), blk', u')) :
    blk' = {blk with txs := blk.txs ++ [bt]} := by
  cases bt with
  | coinbase cb => simp [txsAddTx, Prod.ext_iff] at h
  | user tx =>
    rcases hv : validateTxUser c tx utxos with e2 | ⟨vtx, idxs⟩
    · simp [txsAddTx, hv, Prod.ext_iff] at h
    · simp only [txsAddTx, hv] at h
      rw [Prod.mk.injEq, Prod.mk.injEq] at h
      rw [← h.2.1, validateTxUser_ok_tx c tx utxos vtx idxs hv]

lemma addTxs_ok_blk (c : Crypto) :
    ∀ (l : List BTx) (blk : Block) (u : List UTXO) (blk' : Block) (u' : List UTXO),
      addTxs c l blk u = .ok (blk', u') → blk' = {blk with txs := blk.txs ++ l} := by
  intro l
  induction l with
  | nil =>
    intro blk u blk' u' h
    simp only [addTxs, Except.ok.injEq, Prod.mk.injEq] at h
    rw [← h.1]
    simp
  | cons t rest ih =>
    intro blk u blk' u' h
    simp only [addTxs] at h
    split at h
    · exact Except.noConfusion h
    · rename_i blk1 u1 heq
      rw [ih _ _ _ _ h, txsAddTx_ok_blk c t blk u blk1 u1 heq]
      simp

lemma addCoinbaseE_ok_blk (c : Crypto) (bt : BTx) (blk : Block) (u : List UTXO)
    (blk2 : Block) (u2 : List UTXO) (h : addCoinbaseE c bt blk u = .ok (blk2, u2)) :
    blk2 = {blk with txs := blk.txs ++ [bt]} := by
  cases bt with
  | user t => exact Except.noConfusion h
  | coinbase cb =>
    obtain ⟨cbOuts, cbHash⟩ := cb
    simp only [addCoinbaseE] at h
    split at h
    · rename_i output heq
      split at h
      · exact Except.noConfusion h
      · split at h
        · exact Except.noConfusion h
        · split at h
          · exact Except.noConfusion h
          · split at h
            · exact Except.noConfusion h
            · rw [Except.ok.injEq, Prod.mk.injEq] at h
              rw [← h.1]
    · exact Except.noConfusion h

lemma dropLast_append_of_getLast? :
    ∀ (l : List BTx) (a : BTx), l.getLast? = some a → l.dropLast ++ [a] = l := by
  intro l
  induction l with
  | nil => intro a h; exact Option.noConfusion h
  | cons x t ih =>
    intro a h
    cases t with
    | nil =>
      simp only [List.getLast?_singleton, Option.some.injEq] at h
      simp [h]
    | cons y t2 =>
      rw [List.getLast?_cons_cons] at h
      simpa [List.dropLast_cons₂] using congrArg (fun l => x :: l) (ih a h)

lemma addBlockAux_ok_blk (c : Crypto) (b : Block) (chain : List Block)
    (utxos : List UTXO) (nowMs : Int) (vb : Block) (vu : List UTXO)
    (h : addBlockAux c b chain utxos nowMs = .ok (vb, vu)) : vb = b := by
  unfold addBlockAux at h
  split at h
  · exact Except.noConfusion h
  · split at h
    · exact Except.noConfusion h
    · split at h
      · exact Except.noConfusion h
      · split at h
        · exact Except.noConfusion h
        · split at h
          · exact Except.noConfusion h
          · rename_i prev heqPrev
            split at h
            · exact Except.noConfusion h
            · split at h
              · exact Except.noConfusion h
              · rename_i vblk vu1 heqTxs
                split at h
                · exact Except.noConfusion h
                · rename_i last heqLast
                  split at h
                  · exact Except.noConfusion h
                  · rename_i vblk2 vu2 heqCb
                    split at h
                    · exact Except.noConfusion h
                    · split at h
                      · exact Except.noConfusion h
                      · rw [Except.ok.injEq, Prod.mk.injEq] at h
                        have h5 := addTxs_ok_blk c _ _ _ _ _ heqTxs
                        have h6 := addCoinbaseE_ok_blk c _ _ _ _ _ heqCb
                        rw [← h.1, h6, h5]
                        simp only []
                        rw [List.nil_append, dropLast_append_of_getLast? _ _ heqLast]

lemma addBlock_ok_parts (c : Crypto) (b : Block) (chain : List Block)
    (utxos : List UTXO) (nowMs : Int) (ch' : List Block) (u' : List UTXO)
    (h : addBlock c b chain utxos nowMs = (.ok (), ch', u')) :
    ch' = chain ++ [b] ∧ addBlockAux c b chain utxos nowMs = .ok (b, u') := by
  unfold addBlock at h
  split at h
  · simp [Prod.ext_iff] at h
  · rename_i vb vu heq
    rw [Prod.mk.injEq, Prod.mk.injEq] at h
    have hvb := addBlockAux_ok_blk c b chain utxos nowMs vb vu heq
    constructor
    · rw [← h.2.1, hvb]
    · rw [hvb, h.2.2] at heq
      exact heq

/-! ## chainDifficulty: positivity, exact-range increase, and the stall (C6) -/

lemma rlog2_le : ∀ (fuel n : Nat), 1 ≤ n → 2 ^ rlog2 fuel n ≤ n := by
  intro fuel
  induction fuel with
  | zero => intro n h; simpa [rlog2] using h
  | succ f ih =>
    intro n h
    unfold rlog2
    split
    · simpa using h
    · rename_i h2
      have h3 : 1 ≤ n / 2 := (Nat.one_le_div_iff (by norm_num)).mpr (by omega)
      have h4 := ih (n / 2) h3
      have : 2 ^ (rlog2 f (n / 2) + 1) = 2 ^ rlog2 f (n / 2) * 2 := by ring
      rw [this]
      omega

lemma rne_of_lt {n : Nat} (h : n < 2 ^ 53) : rne n = n := by
  unfold rne
  rw [if_pos h]

lemma rne_pos {n : Nat} (h : 0 < n) : 0 < rne n := by
  unfold rne
  split
  · exact h
  · rename_i h2
    have hlog : 2 ^ nlog2 n ≤ n := rlog2_le 1400 n (by omega)
    have hp : (2 : Nat) ^ (nlog2 n - 52) ≤ n :=
      le_trans (Nat.pow_le_pow_right (by norm_num) (Nat.sub_le _ _)) hlog
    have hppos : 0 < (2 : Nat) ^ (nlog2 n - 52) := pow_pos (by norm_num) _
    have hq : 1 ≤ n / 2 ^ (nlog2 n - 52) := (Nat.one_le_div_iff hppos).mpr hp
    split
    · exact Nat.mul_pos (by omega) hppos
    · exact Nat.mul_pos hq hppos

lemma dblTerm_pos (b : Block) : 0 < dblTerm b := pow_pos (by norm_num) _

lemma chainDifficulty_append (ch : List Block) (b : Block) :
    chainDifficulty (ch ++ [b]) = rne (chainDifficulty ch + dblTerm b) := by
  unfold chainDifficulty
  rw [List.foldl_append]
  rfl

lemma chainDifficulty_fold_pos :
    ∀ (l : List Block) (acc : Nat), 0 < acc →
      0 < l.foldl (fun a b => rne (a + dblTerm b)) acc := by
  intro l
  induction l with
  | nil => exact fun acc h => h
  | cons b t ih =>
    intro acc h
    simp only [List.foldl_cons]
    exact ih _ (rne_pos (by have := dblTerm_pos b; omega))

/-- C6 (amended): chainDifficulty is strictly positive on every nonempty
chain, and appending a block accepted by addBlock strictly increases it as
long as the accumulated doubled sum stays in the exact range below 2 ^ 53
(all sums are stored doubled, see the header note); past that range the
binary64 addition can round the increment away, as the counterexample shows,
so the unconditional claim fails. -/
theorem chainDifficulty_pos_and_increase :
    (∀ ch : List Block, ch ≠ [] → 0 < chainDifficulty ch)
  ∧ (∀ (c : Crypto) (b : Block) (ch : List Block) (u : List UTXO) (nowMs : Int)
        (ch' : List Block) (u' : List UTXO),
        addBlock c b ch u nowMs = (.ok (), ch', u') →
        chainDifficulty ch + dblTerm b < 2 ^ 53 →
        chainDifficulty ch < chainDifficulty ch') := by
  constructor
  · intro ch hne
    cases ch with
    | nil => exact absurd rfl hne
    | cons b t =>
      show 0 < List.foldl _ _ _
      simp only [List.foldl_cons]
      exact chainDifficulty_fold_pos t _ (rne_pos (by have := dblTerm_pos b; omega))
  · intro c b ch u nowMs ch' u' h hbound
    obtain ⟨hch, -⟩ := addBlock_ok_parts c b ch u nowMs ch' u' h
    rw [hch, chainDifficulty_append, rne_of_lt hbound]
    have := dblTerm_pos b
    omega

/-- Witness for C6: a difficulty-0 chain of cumulative doubled value 2 stays
in the exact range, and the accepted difficulty-0 block strictly increases
chainDifficulty from 2 to 4. -/
theorem chainDifficulty_pos_and_increase_witness :
    ([stallPrev] ≠ ([] : List Block) ∧ 0 < chainDifficulty [stallPrev])
  ∧ (addBlock stallC easyNext [easyPrev] [] 0 =
        (.ok (), [easyPrev, easyNext], [⟨stallCb.hash, 0, stallPk, 10⟩])
      ∧ chainDifficulty [easyPrev] + dblTerm easyNext < 2 ^ 53
      ∧ chainDifficulty [easyPrev] < chainDifficulty [easyPrev, easyNext]) :=
  ⟨⟨by decide, chainDifficulty_pos_and_increase.1 [stallPrev] (by decide)⟩,
   ⟨rfl, by decide,
     chainDifficulty_pos_and_increase.2 stallC easyNext [easyPrev] [] 0
       [easyPrev, easyNext] [⟨stallCb.hash, 0, stallPk, 10⟩] rfl (by decide)⟩⟩

/-- C6 (counterexample): a chain holding one block of difficulty 54 has
doubled cumulative difficulty 2 ^ 55; addBlock accepts a difficulty-0 block
onto it, yet chainDifficulty of the extended chain equals that of the
original chain, because the binary64 accumulator rounds 2 ^ 54 + 1 back to
2 ^ 54: the strict increase claimed for sums beyond 2 ^ 53 fails. -/
theorem chainDifficulty_stalls_past_2_53 :
    addBlock stallC stallNext [stallPrev] [] 0 =
      (.ok (), [stallPrev, stallNext], [⟨stallCb.hash, 0, stallPk, 10⟩])
  ∧ chainDifficulty [stallPrev] = 2 ^ 55
  ∧ chainDifficulty [stallPrev, stallNext] = chainDifficulty [stallPrev]
  ∧ ¬ (chainDifficulty [stallPrev] < chainDifficulty [stallPrev, stallNext]) :=
  ⟨rfl, by decide, by decide, by decide⟩

/-! ## Pool acceptance and duplicate-claim rejection (C9) -/

lemma findFrom_some {α : Type} (p : α → Bool) :
    ∀ {l : List α} {a : α}, findFrom p l = some a → p a = true := by
  intro l
  induction l with
  | nil => intro a h; exact Option.noConfusion h
  | cons x t ih =>
    intro a h
    unfold findFrom at h
    split at h
    · rename_i hx
      rw [Option.some.injEq] at h
      rw [← h]
      exact hx
    · exact ih h

lemma findFrom_isSome_of_exists {α : Type} (p : α → Bool) :
    ∀ {l : List α}, (∃ a ∈ l, p a = true) → ∃ a, findFrom p l = some a := by
  intro l
  induction l with
  | nil => rintro ⟨a, ha, -⟩; exact absurd ha (List.not_mem_nil a)
  | cons x t ih =>
    rintro ⟨a, ha, hpa⟩
    unfold findFrom
    split
    · exact ⟨x, rfl⟩
    · rename_i hx
      rcases List.mem_cons.mp ha with rfl | hat
      · exact absurd hpa (by simp [hx])
      · exact ih ⟨a, hat, hpa⟩

lemma findFrom_isSome_iff_any {α : Type} (p : α → Bool) :
    ∀ (l : List α), (findFrom p l).isSome = l.any p := by
  intro l
  induction l with
  | nil => rfl
  | cons x t ih =>
    unfold findFrom
    rw [List.any_cons]
    split
    · rename_i hx
      simp [hx]
    · rename_i hx
      simp [hx, ih]

lemma findIdxFrom_some_mem {α : Type} (p : α → Bool) :
    ∀ {l : List α} {k : Nat}, findIdxFrom p l = some k → ∃ a ∈ l, p a = true := by
  intro l
  induction l with
  | nil => intro k h; exact Option.noConfusion h
  | cons x t ih =>
    intro k h
    unfold findIdxFrom at h
    split at h
    · rename_i hx
      exact ⟨x, List.mem_cons_self x t, hx⟩
    · rcases Option.map_eq_some'.mp h with ⟨j, hj, -⟩
      obtain ⟨a, ha, hpa⟩ := ih hj
      exact ⟨a, List.mem_cons_of_mem x ha, hpa⟩

lemma valInputs_found (utxos : List UTXO) :
    ∀ (ins : List TxInput) (idxs : List Nat) (net : Int) (r : List Nat × Int),
      valInputs utxos ins idxs net = .ok r →
      ∀ i ∈ ins, ∃ u ∈ utxos, matchUTXO i.hash i.index u = true := by
  intro ins
  induction ins with
  | nil => intro idxs net r _ i hi; exact absurd hi (List.not_mem_nil i)
  | cons x t ih =>
    intro idxs net r h i hi
    simp only [valInputs] at h
    split at h
    · exact Except.noConfusion h
    · split at h
      · exact Except.noConfusion h
      · split at h
        · exact Except.noConfusion h
        · rename_i k hk
          split at h
          · exact Except.noConfusion h
          · rcases List.mem_cons.mp hi with rfl | hit
            · exact findIdxFrom_some_mem (matchUTXO i.hash i.index) hk
            · exact ih _ _ _ h i hit

lemma validateTxUser_ok_found (c : Crypto) (tx : Tx) (utxos : List UTXO)
    (r : Tx × List Nat) (h : validateTxUser c tx utxos = .ok r) :
    ∀ i ∈ tx.inputs, ∃ u ∈ utxos, matchUTXO i.hash i.index u = true := by
  unfold validateTxUser at h
  split at h
  · exact Except.noConfusion h
  · split at h
    · exact Except.noConfusion h
    · split at h
      · exact Except.noConfusion h
      · rename_i idxs0 net1 heqIns
        exact valInputs_found utxos tx.inputs [] 0 (idxs0, net1) heqIns

lemma collectClaims_spec (utxos used : List UTXO) :
    ∀ (ins : List TxInput) (acc : List UTXO),
      (∀ i ∈ ins, ∃ u ∈ utxos, matchUTXO i.hash i.index u = true) →
      collectClaims ins utxos used acc =
        if ins.any (fun i => used.any (matchUTXO i.hash i.index)) then .ok none
        else .ok (some (acc ++ ins.map (fun i =>
          (findFrom (matchUTXO i.hash i.index) utxos).getD dfltUTXO))) := by
  intro ins
  induction ins with
  | nil => intro acc _; simp [collectClaims]
  | cons i rest ih =>
    intro acc hfound
    obtain ⟨u0, hfind⟩ := findFrom_isSome_of_exists (matchUTXO i.hash i.index)
      (hfound i (List.mem_cons_self i rest))
    have hmatch : u0.hash = i.hash ∧ u0.index = i.index := by
      have := findFrom_some (matchUTXO i.hash i.index) hfind
      simpa [matchUTXO] using this
    have hrest : ∀ j ∈ rest, ∃ u ∈ utxos, matchUTXO j.hash j.index u = true :=
      fun j hj => hfound j (List.mem_cons_of_mem i hj)
    simp only [collectClaims, hfind, hmatch.1, hmatch.2, findFrom_isSome_iff_any,
      List.any_cons]
    by_cases hc : used.any (matchUTXO i.hash i.index) = true
    · simp [hc]
    · rw [Bool.not_eq_true] at hc
      rw [if_neg (by simp [hc]), ih (acc ++ [u0]) hrest]
      simp only [hc, Bool.false_or]
      by_cases hr : (rest.any fun j => used.any (matchUTXO j.hash j.index)) = true
      · simp [hr]
      · rw [Bool.not_eq_true] at hr
        simp only [hr, Bool.false_eq_true, if_false]
        rw [Except.ok.injEq, Option.some.injEq]
        rw [List.map_cons, hfind]
        simp [List.append_assoc]

/-- C9: whenever a transaction passes the validator dry run, pool.addTx
returns false and leaves the pool untouched if some input key is already
claimed in usedUTXOs, and otherwise appends the transaction together with the
chain UTXOs its inputs claim and returns true; hence of two valid
transactions spending the same UTXO the pool accepts the first and silently
rejects the second with no state change. -/
theorem poolAddTx_spec (c : Crypto) (tx : Tx) (utxos : List UTXO) (ps : PoolState)
    (hval : (txsAddTx c (.user tx) dummyBlock utxos).1 = .ok ()) :
    (claimsOverlap tx ps.usedUTXOs = true →
        poolAddTx c (.user tx) utxos ps = (.ok false, utxos, ps))
  ∧ (claimsOverlap tx ps.usedUTXOs = false →
        poolAddTx c (.user tx) utxos ps =
          (.ok true, utxos, ⟨ps.txs ++ [tx], ps.usedUTXOs ++ poolClaimUTXOs tx utxos⟩)) := by
  have hfound : ∀ i ∈ tx.inputs, ∃ u ∈ utxos, matchUTXO i.hash i.index u = true := by
    rcases hv : validateTxUser c tx utxos with e | r
    · simp [txsAddTx, hv] at hval
    · exact validateTxUser_ok_found c tx utxos r hv
  have hcc := collectClaims_spec utxos ps.usedUTXOs tx.inputs [] hfound
  constructor
  · intro hc
    simp only [claimsOverlap] at hc
    have hnone : collectClaims tx.inputs utxos ps.usedUTXOs [] = .ok none := by
      rw [hcc, if_pos hc]
    simp only [poolAddTx, hval, hnone]
  · intro hc
    simp only [claimsOverlap] at hc
    have hsome : collectClaims tx.inputs utxos ps.usedUTXOs [] =
        .ok (some (poolClaimUTXOs tx utxos)) := by
      rw [hcc, if_neg (by simp [hc])]
      simp [poolClaimUTXOs]
    simp only [poolAddTx, hval, hsome]

/-- Witness for C9: a validating transaction whose single input key is
already claimed in the pool is rejected with false and no state change. -/
theorem poolAddTx_spec_witness :
    (txsAddTx demoC (.user poolOkTx) dummyBlock poolUTXOs).1 = .ok ()
  ∧ claimsOverlap poolOkTx claimedPool.usedUTXOs = true
  ∧ poolAddTx demoC (.user poolOkTx) poolUTXOs claimedPool =
      (.ok false, poolUTXOs, claimedPool) :=
  ⟨rfl, by decide, (poolAddTx_spec demoC poolOkTx poolUTXOs claimedPool rfl).1 (by decide)⟩

/-! ## swapChains: fork choice and idempotence on the own chain (C5)

Only the timestamp window of addBlock mentions the clock, so a block accepted
at some instant is accepted with the same result at every later instant; a
chain built by addBlock commits therefore revalidates from genesis to itself,
which makes swapChains on the own current chain return 0 and change nothing. -/

lemma addBlockAux_mono (c : Crypto) (b : Block) (chain : List Block)
    (utxos : List UTXO) {t t' : Int} (hle : t ≤ t') (r : Block × List UTXO)
    (h : addBlockAux c b chain utxos t = .ok r) :
    addBlockAux c b chain utxos t' = .ok r := by
  unfold addBlockAux at h ⊢
  split at h
  · exact Except.noConfusion h
  · rename_i h1
    rw [if_neg h1]
    split at h
    · exact Except.noConfusion h
    · rename_i h2
      rw [if_neg h2]
      split at h
      · exact Except.noConfusion h
      · rename_i h3
        rw [if_neg h3]
        split at h
        · exact Except.noConfusion h
        · rename_i h4
          rw [if_neg h4]
          split at h
          · exact Except.noConfusion h
          · rename_i prev heqPrev
            split at h
            · exact Except.noConfusion h
            · rename_i ht
              rw [if_neg (by push_neg at ht ⊢; exact ⟨ht.1, by omega⟩)]
              exact h

lemma addBlock_mono (c : Crypto) (b : Block) (ch : List Block) (u : List UTXO)
    {t t' : Int} (hle : t ≤ t') {ch' : List Block} {u' : List UTXO}
    (h : addBlock c b ch u t = (.ok (), ch', u')) :
    addBlock c b ch u t' = (.ok (), ch', u') := by
  unfold addBlock at h ⊢
  split at h
  · simp [Prod.ext_iff] at h
  · rename_i vb vu heq
    rw [addBlockAux_mono c b ch u hle (vb, vu) heq]
    exact h

lemma Built_ne_nil {c : Crypto} {ch : List Block} {u : List UTXO} {T : Int}
    (h : Built c ch u T) : ch ≠ [] := by
  induction h with
  | genesis T => exact List.cons_ne_nil _ _
  | step hb hle hadd ih =>
    rename_i ch1 u1 T1 t1 b1 ch1' u1'
    obtain ⟨hch, -⟩ := addBlock_ok_parts _ _ _ _ _ _ _ hadd
    simp [hch]

lemma addBlocks_snoc (c : Crypto) (now : Int) :
    ∀ (l : List Block) (b : Block) (ch0 : List Block) (u0 : List UTXO)
      (m : List Block) (mu : List UTXO) (m' : List Block) (mu' : List UTXO),
      addBlocks c now l ch0 u0 = .ok (m, mu) →
      addBlock c b m mu now = (.ok (), m', mu') →
      addBlocks c now (l ++ [b]) ch0 u0 = .ok (m', mu') := by
  intro l
  induction l with
  | nil =>
    intro b ch0 u0 m mu m' mu' h1 h2
    simp only [addBlocks, Except.ok.injEq, Prod.mk.injEq] at h1
    obtain ⟨hm, hmu⟩ := h1
    subst hm
    subst hmu
    simp only [List.nil_append, addBlocks, h2]
  | cons x rest ih =>
    intro b ch0 u0 m mu m' mu' h1 h2
    simp only [List.cons_append, addBlocks] at h1 ⊢
    rcases hx : addBlock c x ch0 u0 now with ⟨exc, ch1, u1⟩
    rw [hx] at h1
    cases exc with
    | error e => exact Except.noConfusion h1
    | ok uu =>
      cases uu
      exact ih b ch1 u1 m mu m' mu' h1 h2

lemma Built_rebuild {c : Crypto} {ch : List Block} {u : List UTXO} {T : Int}
    (h : Built c ch u T) :
    ∀ now : Int, T ≤ now →
      addBlocks c now (ch.drop 1) [genesisBlock c] (genesisUTXOs c) = .ok (ch, u) := by
  induction h with
  | genesis T2 => intro now hT; rfl
  | step hb hle hadd ih =>
    intro now hT
    rename_i ch1 u1 T1 t1 b1 ch1' u1'
    obtain ⟨hch, -⟩ := addBlock_ok_parts _ _ _ _ _ _ _ hadd
    have hne := Built_ne_nil hb
    have hdrop : ch1'.drop 1 = ch1.drop 1 ++ [b1] := by
      rw [hch]
      cases ch1 with
      | nil => exact absurd rfl hne
      | cons y t => simp
    rw [hdrop]
    exact addBlocks_snoc c now (ch1.drop 1) b1 [genesisBlock c] (genesisUTXOs c)
      ch1 u1 ch1' u1' (ih now hT) (addBlock_mono c b1 ch1 u1 (le_trans hle hT) hadd)

lemma rne_zero : rne 0 = 0 := by decide

lemma rneInt_pos_iff (x : Int) : 0 < rneInt x ↔ 0 < x := by
  unfold rneInt
  split
  · rename_i hx
    constructor
    · intro hp
      rcases lt_or_eq_of_le hx with h | h
      · exact h
      · exfalso
        rw [← h] at hp
        simp [rne_zero] at hp
    · intro hp
      have h1 : 0 < x.toNat := by omega
      have h2 := rne_pos h1
      exact_mod_cast h2
  · rename_i hx
    constructor
    · intro hp
      exfalso
      have h1 : (0 : Int) ≤ (rne (-x).toNat : Int) := Int.natCast_nonneg _
      omega
    · intro hp
      exact absurd (le_of_lt hp) hx

/-- C5: when swapChains returns ok, the returned value is the binary64
difference between the rebuilt candidate difficulty and the current one, the
node state is replaced by the validated chain and UTXO set exactly when that
difference is strictly positive (equivalently, when the validated cumulative
difficulty strictly exceeds the current one), and is untouched otherwise; in
particular, on a state whose chain and UTXO set were built from genesis by
addBlock commits, swapChains applied to the own current chain at any later
instant returns 0 and changes nothing. -/
theorem swapChains_spec :
    (∀ (c : Crypto) (cand : List Block) (nowMs : Int) (st : NodeState)
        (d : Int) (st' : NodeState),
        swapChains c cand nowMs st = (.ok d, st') →
        ∃ v vu, addBlocks c nowMs (cand.drop 1) [genesisBlock c] (genesisUTXOs c) = .ok (v, vu)
          ∧ d = rneInt ((chainDifficulty v : Int) - (chainDifficulty st.chain : Int))
          ∧ (0 < d ↔ chainDifficulty st.chain < chainDifficulty v)
          ∧ st' = if 0 < d then ⟨v, vu⟩ else st)
  ∧ (∀ (c : Crypto) (st : NodeState) (T nowMs : Int),
        Built c st.chain st.utxos T → T ≤ nowMs →
        swapChains c st.chain nowMs st = (.ok 0, st)) := by
  constructor
  · intro c cand nowMs st d st' h
    unfold swapChains at h
    split at h
    · simp [Prod.ext_iff] at h
    · rename_i v vu heq
      refine ⟨v, vu, heq, ?_⟩
      dsimp only at h
      have hsign : 0 < rneInt ((chainDifficulty v : Int) - (chainDifficulty st.chain : Int))
          ↔ chainDifficulty st.chain < chainDifficulty v := by
        rw [rneInt_pos_iff]
        omega
      split at h
      · rename_i hpos
        rw [Prod.mk.injEq, Except.ok.injEq] at h
        obtain ⟨hd, hst⟩ := h
        subst hd
        exact ⟨rfl, hsign, by rw [if_pos hpos]; exact hst.symm⟩
      · rename_i hneg
        rw [Prod.mk.injEq, Except.ok.injEq] at h
        obtain ⟨hd, hst⟩ := h
        subst hd
        exact ⟨rfl, hsign, by rw [if_neg hneg]; exact hst.symm⟩
  · intro c st T nowMs hb hle
    have hreb := Built_rebuild hb nowMs hle
    have h0 : rneInt ((chainDifficulty st.chain : Int) - (chainDifficulty st.chain : Int)) = 0 := by
      rw [sub_self]
      decide
    unfold swapChains
    rw [hreb]
    dsimp only
    rw [h0, if_neg (by norm_num)]

/-- Witness for C5: at the genesis state, which is Built by construction,
swapChains on the own chain returns 0 and leaves the state unchanged. -/
theorem swapChains_spec_witness :
    swapChains demoC [genesisBlock demoC] 0 demoGenesisState = (.ok 0, demoGenesisState) :=
  swapChains_spec.2 demoC demoGenesisState 0 0 (Built.genesis 0) (le_refl 0)

end Minicoin
